import Mathlib

/-
Verification of the sciuromorpha git client (gitclient.go).

The client checks out a named tag and then prunes the working tree down to
the allowlist read from `.git/info/sparse-checkout`.  This file gives a
shallow embedding of the code paths involved:

* the working tree is a listing of named nodes (`FSNode`), and the prune
  phase of `CheckoutTag` is a function from the top-level listing to an
  error outcome together with the listing after pruning;
* the object database is a list of `OdbObject`s, and `GetTag` folds the
  `odb.ForEach` callback over it;
* the remote lookup, the fetch and the tree checkout are abstracted by
  boolean outcomes in `GitEnv` (their filesystem and network effects are
  outside the embedding; the listing handed to the prune phase is the one
  the checkout produced);
* Go panics (indexing an empty string in `isHidden`) are modeled as `none`
  / a dedicated error value, and `os.PathSeparator` is the Linux `'/'`.
-/

/-- Working-tree node: a file with its contents, or a directory with its
named children, as observed through `ioutil.ReadDir` / `ioutil.ReadFile`. -/
inductive FSNode where
  | file (content : String)
  | dir (entries : List (String × FSNode))

/-- First entry with the given name in a directory listing, mirroring the
scan loop inside `getFileInfoByName`. -/
def findEntry : List (String × FSNode) → String → Option FSNode
  | [], _ => none
  | (n, node) :: rest, name => if n = name then some node else findEntry rest name

/-- Errors arising in the prune phase of `CheckoutTag`.  `ERRNF` is the
`errors.New("ERRNF")` value produced by `getFileInfoByName`;
`readDirFailed` models `ioutil.ReadDir` failing on a non-directory,
`readFileFailed` models `ioutil.ReadFile` failing on a directory, and
`indexOutOfRange` models the Go runtime panic raised by `isHidden` on an
empty string. -/
inductive PruneErr where
  | ERRNF
  | readDirFailed
  | readFileFailed
  | indexOutOfRange
deriving DecidableEq

/-- Embeds `getFileInfoByName(prefixDir, name)`: list the directory (which
fails on a non-directory), return the entry called `name` if present, and
the `ERRNF` error otherwise. -/
def getFileInfoByName (node : FSNode) (name : String) : Except PruneErr FSNode :=
  match node with
  | .file _ => .error PruneErr.readDirFailed
  | .dir es =>
    match findEntry es name with
    | some e => .ok e
    | none => .error PruneErr.ERRNF

/-- Embeds `ioutil.ReadFile` applied to a node. -/
def readFileNode : FSNode → Except PruneErr String
  | .file c => .ok c
  | .dir _ => .error PruneErr.readFileFailed

/-- The string `string(os.PathSeparator)` on Linux. -/
def pathSeparator : String := "/"

/-- Embeds `sparseEntries.contains`: some allowlist entry equals the name,
or equals the name with the path separator appended. -/
def sparseContains (se : List String) (i : String) : Bool :=
  se.any fun v => v == i || v == i ++ pathSeparator

/-- Embeds `isHidden`, which reads `i[0]` without a guard: `none` models the
index-out-of-range panic on the empty string, `some b` the boolean result
comparing the first character with `'.'`. -/
def isHidden (i : String) : Option Bool :=
  match i.data with
  | [] => none
  | c :: _ => some (c == '.')

/-- Retention decision the prune loop makes for one entry name.  It mirrors
the short-circuit deletion test `!sparses.contains(v.Name()) &&
!isHidden(v.Name())`, negated: retain when contained, otherwise consult
`isHidden` (whose panic on an empty name propagates as `none`). -/
def retainDecision (sparses : List String) (n : String) : Option Bool :=
  if sparseContains sparses n then some true else isHidden n

/-- Embeds `strings.Split(s, "\n")` on the character list: pieces between
newline characters, with a leading/trailing empty piece for a bordering
newline. -/
def splitNl : List Char → List (List Char)
  | [] => [[]]
  | c :: cs =>
    if c = '\n' then [] :: splitNl cs
    else
      match splitNl cs with
      | [] => [[c]]
      | l :: ls => (c :: l) :: ls

/-- Embeds `strings.Split(string(sparseData), "\n")`. -/
def splitLines (s : String) : List String := (splitNl s.data).map String.mk

/-- The deletion loop of `CheckoutTag` over the top-level listing: keep an
entry when `retainDecision` says so, delete it (`os.RemoveAll`, modeled as
always succeeding) otherwise, and abort with `indexOutOfRange` when the
hidden test panics, leaving the current entry and the rest untouched.
Returns the error outcome and the surviving listing. -/
def pruneLoop (sparses : List String) :
    List (String × FSNode) → Option PruneErr × List (String × FSNode)
  | [] => (none, [])
  | e :: rest =>
    match retainDecision sparses e.1 with
    | none => (some PruneErr.indexOutOfRange, e :: rest)
    | some true =>
      let r := pruneLoop sparses rest
      (r.1, e :: r.2)
    | some false => pruneLoop sparses rest

/-- Prune phase of `CheckoutTag` (everything after the checkout): find
`.git` in the root listing (its absence is the `ERRNF` failure), then look
for `info` and `sparse-checkout` beneath it — either missing with `ERRNF`
clears the sparse flag and the phase succeeds deleting nothing; any other
lookup error propagates.  With the sparse file present its contents are
split on newlines and the deletion loop runs over the root listing.
Returns the error outcome together with the final top-level listing. -/
def prunePhase (root : List (String × FSNode)) : Option PruneErr × List (String × FSNode) :=
  match getFileInfoByName (FSNode.dir root) ".git" with
  | .error e => (some e, root)
  | .ok g =>
    match getFileInfoByName g "info" with
    | .error e => if e = PruneErr.ERRNF then (none, root) else (some e, root)
    | .ok info =>
      match getFileInfoByName info "sparse-checkout" with
      | .error e => if e = PruneErr.ERRNF then (none, root) else (some e, root)
      | .ok sp =>
        match readFileNode sp with
        | .error e => (some e, root)
        | .ok sparseData => pruneLoop (splitLines sparseData) root

/-- Object seen while enumerating the object database: a tag object with
its oid and name, an object that is not a tag (`AsTag` errs and the object
is skipped), or an object whose `Lookup` fails — the enumeration-error
case, which makes the callback return that error and aborts `ForEach`. -/
inductive OdbObject where
  | tagObj (oid : Nat) (name : String)
  | nonTag (oid : Nat)
  | badObj (oid : Nat)
deriving DecidableEq

/-- Whether the object is one whose `Lookup` fails. -/
def OdbObject.isBad : OdbObject → Bool
  | .badObj _ => true
  | _ => false

/-- Embeds the `odb.ForEach` loop inside `GetTag`: each tag object whose
name equals the query overwrites `t`; a `Lookup` failure aborts the
iteration and is the value `ForEach` returns (carrying the failing oid).
The result is the final `t` together with that returned error. -/
def forEachTag (query : String) :
    List OdbObject → Option (Nat × String) → Option (Nat × String) × Option Nat
  | [], t => (t, none)
  | .tagObj oid n :: rest, t =>
    forEachTag query rest (if n = query then some (oid, n) else t)
  | .nonTag _ :: rest, t => forEachTag query rest t
  | .badObj oid :: _, t => (t, some oid)

/-- Embeds `gitterImpl.GetTag` after a successful `Odb()`: the loop runs,
but the value `odb.ForEach` returns is discarded (the call statement is not
an assignment), and the `err` in `return t, err` is the one `g.r.Odb()`
produced, already known to be nil — so the error component is always
`none`. -/
def GetTag (odb : List OdbObject) (query : String) :
    Option (Nat × String) × Option Nat :=
  ((forEachTag query odb none).1, none)

/-- Tag objects of the database whose name equals the query, in
enumeration order. -/
def tagMatches (odb : List OdbObject) (query : String) : List (Nat × String) :=
  odb.filterMap fun o =>
    match o with
    | .tagObj oid n => if n = query then some (oid, n) else none
    | _ => none

/-- Outcomes of the steps of `CheckoutTag` that live outside the embedded
filesystem: the `origin` remote lookup, the fetch, the object database, and
the tree checkout together with the head update. -/
structure GitEnv where
  remoteOk : Bool
  fetchOk : Bool
  odb : List OdbObject
  treeOk : Bool

/-- Error values `CheckoutTag` can return.  `tagNotFound` is the
`errors.New("Unabled to find specified tag")` value; `pruneErr` carries an
error of the prune phase. -/
inductive GoError where
  | remoteLookupFailed
  | fetchFailed
  | tagNotFound
  | checkoutTreeFailed
  | pruneErr (e : PruneErr)
deriving DecidableEq

/-- Embeds `GitClient.CheckoutTag`: the remote lookup, the fetch, the tag
resolution guard `t != nil && err == nil`, the tree checkout with head
update, then the prune phase.  `root` is the top-level working-directory
listing as the prune phase first reads it (the checkout has already
materialized the tree); the second component of the result is the listing
after the run, returned unchanged on every path that deletes nothing. -/
def CheckoutTag (env : GitEnv) (root : List (String × FSNode)) (tag : String) :
    Option GoError × List (String × FSNode) :=
  if env.remoteOk = false then (some GoError.remoteLookupFailed, root)
  else if env.fetchOk = false then (some GoError.fetchFailed, root)
  else
    match GetTag env.odb tag with
    | (some _, none) =>
      if env.treeOk = false then (some GoError.checkoutTreeFailed, root)
      else
        match prunePhase root with
        | (some e, r) => (some (GoError.pruneErr e), r)
        | (none, r) => (none, r)
    | _ => (some GoError.tagNotFound, root)

lemma string_eq_empty_of_data {s : String} (h : s.data = []) : s = "" :=
  String.ext (by simpa using h)

lemma sparseContains_iff {se : List String} {n : String} :
    sparseContains se n = true ↔ ∃ l ∈ se, l = n ∨ l = n ++ pathSeparator := by
  simp [sparseContains, List.any_eq_true]

lemma isHidden_some {n : String} {c : Char} {cs : List Char} (h : n.data = c :: cs) :
    isHidden n = some (c == '.') := by
  simp [isHidden, h]

lemma pruneLoop_eq_filter (se : List String) (l : List (String × FSNode))
    (hne : ∀ e ∈ l, e.1 ≠ "") :
    pruneLoop se l =
      (none, l.filter fun e => sparseContains se e.1 || (isHidden e.1).getD false) := by
  induction l with
  | nil => rfl
  | cons e rest ih =>
    have hne1 : e.1 ≠ "" := hne e (by simp)
    have hner : ∀ x ∈ rest, x.1 ≠ "" := fun x hx => hne x (by simp [hx])
    rcases hd : e.1.data with _ | ⟨c, cs⟩
    · exact absurd (string_eq_empty_of_data hd) hne1
    · have hh : isHidden e.1 = some (c == '.') := isHidden_some hd
      by_cases hc : sparseContains se e.1
      · simp [pruneLoop, retainDecision, hc, ih hner]
      · cases hdot : (c == '.') with
        | true => simp [pruneLoop, retainDecision, hc, hh, hdot, ih hner]
        | false => simp [pruneLoop, retainDecision, hc, hh, hdot, ih hner]

lemma pruneLoop_idem (se : List String) (l : List (String × FSNode)) :
    pruneLoop se (pruneLoop se l).2 = pruneLoop se l := by
  induction l with
  | nil => rfl
  | cons e rest ih =>
    rcases hr : retainDecision se e.1 with _ | b
    · have h1 : pruneLoop se (e :: rest) = (some PruneErr.indexOutOfRange, e :: rest) := by
        simp [pruneLoop, hr]
      rw [h1]
      simp [pruneLoop, hr]
    · cases b with
      | true =>
        have h1 : pruneLoop se (e :: rest) = ((pruneLoop se rest).1, e :: (pruneLoop se rest).2) := by
          simp [pruneLoop, hr]
        have h2 : pruneLoop se (e :: (pruneLoop se rest).2) =
            ((pruneLoop se (pruneLoop se rest).2).1, e :: (pruneLoop se (pruneLoop se rest).2).2) := by
          simp [pruneLoop, hr]
        rw [h1, h2, ih]
      | false =>
        have h1 : pruneLoop se (e :: rest) = pruneLoop se rest := by
          simp [pruneLoop, hr]
        rw [h1, ih]

lemma findEntry_pruneLoop (se : List String) (l : List (String × FSNode))
    {name : String} {c : Char} {cs : List Char} (hname : name.data = c :: cs)
    (hdot : c = '.') :
    findEntry (pruneLoop se l).2 name = findEntry l name := by
  induction l with
  | nil => rfl
  | cons e rest ih =>
    obtain ⟨n, node⟩ := e
    rcases hr : retainDecision se n with _ | b
    · simp [pruneLoop, hr]
    · cases b with
      | true =>
        have h1 : pruneLoop se ((n, node) :: rest) =
            ((pruneLoop se rest).1, (n, node) :: (pruneLoop se rest).2) := by
          simp [pruneLoop, hr]
        rw [h1]
        by_cases he : n = name
        · simp [findEntry, he]
        · simp [findEntry, he, ih]
      | false =>
        -- a deleted entry is non-hidden, so its name differs from the hidden one
        have hne : n ≠ name := by
          intro h
          have hfalse : isHidden n = some false := by
            by_cases hc : sparseContains se n
            · simp [retainDecision, hc] at hr
            · simpa [retainDecision, hc] using hr
          rw [h, isHidden_some hname] at hfalse
          simp [hdot] at hfalse
        have h1 : pruneLoop se ((n, node) :: rest) = pruneLoop se rest := by
          simp [pruneLoop, hr]
        rw [h1]
        simp [findEntry, hne, ih]

/-- C2: the pruner's retention decision for a top-level entry name holds
exactly when the name equals some allowlist entry verbatim, or some
allowlist entry equals the name with one trailing path separator appended
(directory-style match), or the name is hidden (starts with `'.'`); and
hidden names are retained unconditionally, regardless of the allowlist. -/
theorem retainDecision_covered_iff (L : List String) (E : String) :
    (retainDecision L E = some true ↔
      ((∃ l ∈ L, l = E) ∨ (∃ l ∈ L, l = E ++ pathSeparator) ∨
        E.data.head? = some '.')) ∧
    (E.data.head? = some '.' → retainDecision L E = some true) := by
  have hmain : retainDecision L E = some true ↔
      ((∃ l ∈ L, l = E) ∨ (∃ l ∈ L, l = E ++ pathSeparator) ∨
        E.data.head? = some '.') := by
    by_cases hc : sparseContains L E
    · constructor
      · intro _
        rcases sparseContains_iff.mp hc with ⟨l, hl, h | h⟩
        · exact Or.inl ⟨l, hl, h⟩
        · exact Or.inr (Or.inl ⟨l, hl, h⟩)
      · intro _
        simp [retainDecision, hc]
    · have hnex : ¬ ∃ l ∈ L, l = E ∨ l = E ++ pathSeparator := fun h =>
        hc (sparseContains_iff.mpr h)
      rcases hd : E.data with _ | ⟨ch, cs⟩
      · constructor
        · intro h
          simp [retainDecision, hc, isHidden, hd] at h
        · rintro (⟨l, hl, h⟩ | ⟨l, hl, h⟩ | h)
          · exact absurd ⟨l, hl, Or.inl h⟩ hnex
          · exact absurd ⟨l, hl, Or.inr h⟩ hnex
          · simp [hd] at h
      · have hh : retainDecision L E = some (ch == '.') := by
          simp [retainDecision, hc, isHidden_some hd]
        rw [hh]
        constructor
        · intro h
          refine Or.inr (Or.inr ?_)
          simp [hd]
          simpa using h
        · rintro (⟨l, hl, h⟩ | ⟨l, hl, h⟩ | h)
          · exact absurd ⟨l, hl, Or.inl h⟩ hnex
          · exact absurd ⟨l, hl, Or.inr h⟩ hnex
          · simp [hd] at h
            simp [h]
  exact ⟨hmain, fun h => hmain.mpr (Or.inr (Or.inr h))⟩

/-- C6: when the working-directory root contains no entry named `.git`, the
prune phase of `CheckoutTag` fails with the not-found error `ERRNF` and the
working tree is returned unchanged — no entry has been deleted. -/
theorem checkoutTag_missing_git_fails (env : GitEnv) (root : List (String × FSNode))
    (tag : String)
    (hr : env.remoteOk = true) (hf : env.fetchOk = true) (ht : env.treeOk = true)
    (htag : ∃ tg, (GetTag env.odb tag).1 = some tg)
    (hgit : findEntry root ".git" = none) :
    CheckoutTag env root tag = (some (GoError.pruneErr PruneErr.ERRNF), root) := by
  obtain ⟨tg, htg⟩ := htag
  have hgt : GetTag env.odb tag = (some tg, none) := by
    rw [show GetTag env.odb tag = ((GetTag env.odb tag).1, (GetTag env.odb tag).2) from rfl,
      htg]
    rfl
  have hp : prunePhase root = (some PruneErr.ERRNF, root) := by
    simp [prunePhase, getFileInfoByName, hgit]
  simp [CheckoutTag, hr, hf, ht, hgt, hp]

def envC6 : GitEnv := ⟨true, true, [OdbObject.tagObj 0 "test"], true⟩

theorem checkoutTag_missing_git_fails_witness :
    CheckoutTag envC6 [("src", FSNode.dir [])] "test" =
      (some (GoError.pruneErr PruneErr.ERRNF), [("src", FSNode.dir [])]) :=
  checkoutTag_missing_git_fails envC6 [("src", FSNode.dir [])] "test" rfl rfl rfl
    ⟨(0, "test"), rfl⟩ rfl

/-- C7: the prune phase is idempotent — run on the tree it has itself just
produced, it reports the same outcome and deletes nothing further, for
every working-tree state (and hence every allowlist read from it). -/
theorem prunePhase_idempotent (root : List (String × FSNode)) :
    prunePhase (prunePhase root).2 = prunePhase root := by
  rcases hgit : findEntry root ".git" with _ | g
  · simp [prunePhase, getFileInfoByName, hgit]
  cases g with
  | file c => simp [prunePhase, getFileInfoByName, hgit]
  | dir gEs =>
    rcases hinfo : findEntry gEs "info" with _ | info
    · simp [prunePhase, getFileInfoByName, hgit, hinfo]
    cases info with
    | file c => simp [prunePhase, getFileInfoByName, hgit, hinfo]
    | dir iEs =>
      rcases hsp : findEntry iEs "sparse-checkout" with _ | sp
      · simp [prunePhase, getFileInfoByName, hgit, hinfo, hsp]
      cases sp with
      | dir es => simp [prunePhase, getFileInfoByName, hgit, hinfo, hsp, readFileNode]
      | file s =>
        have hdotgit : (".git" : String).data = '.' :: ['g', 'i', 't'] := rfl
        have hfind : findEntry (pruneLoop (splitLines s) root).2 ".git" =
            findEntry root ".git" :=
          findEntry_pruneLoop (splitLines s) root hdotgit rfl
        have h1 : prunePhase root = pruneLoop (splitLines s) root := by
          simp [prunePhase, getFileInfoByName, hgit, hinfo, hsp, readFileNode]
        rw [h1]
        simp [prunePhase, getFileInfoByName, hfind, hgit, hinfo, hsp, readFileNode,
          pruneLoop_idem]

/-- C10: `isHidden` reads the first byte of its argument without a bounds
guard, so on the empty string it reaches the index-out-of-range panic
branch (the `none` result); under the precondition that every name in the
listing is non-empty — true of names coming from a directory listing — the
prune loop never reaches that branch and finishes without error. -/
theorem isHidden_empty_panics_loop_safe :
    isHidden "" = none ∧
      ∀ (se : List String) (root : List (String × FSNode)),
        (∀ e ∈ root, e.1 ≠ "") → (pruneLoop se root).1 = none := by
  refine ⟨rfl, fun se root hne => ?_⟩
  rw [pruneLoop_eq_filter se root hne]

theorem isHidden_empty_panics_loop_safe_witness :
    isHidden "" = none ∧
      (pruneLoop ["second"]
        [("first", FSNode.file "1"), (".hidden", FSNode.file "2")]).1 = none :=
  ⟨isHidden_empty_panics_loop_safe.1,
    isHidden_empty_panics_loop_safe.2 ["second"]
      [("first", FSNode.file "1"), (".hidden", FSNode.file "2")] (by decide)⟩

/-- C1: after `CheckoutTag` returns successfully on a working tree whose
root contains `.git/info/sparse-checkout`, the surviving top-level listing
is exactly the original listing filtered to the entries that are covered by
the allowlist split from that file or hidden: every non-hidden uncovered
entry has been deleted, and every covered or hidden entry survives with its
node — hence its content — unchanged. -/
theorem checkoutTag_sparse_prune_invariant (env : GitEnv) (root : List (String × FSNode))
    (tag : String) (gEs iEs : List (String × FSNode)) (s : String)
    (r' : List (String × FSNode))
    (hgit : findEntry root ".git" = some (FSNode.dir gEs))
    (hinfo : findEntry gEs "info" = some (FSNode.dir iEs))
    (hsp : findEntry iEs "sparse-checkout" = some (FSNode.file s))
    (hne : ∀ e ∈ root, e.1 ≠ "")
    (hsucc : CheckoutTag env root tag = (none, r')) :
    r' = root.filter fun e =>
      sparseContains (splitLines s) e.1 || (isHidden e.1).getD false := by
  have hp : prunePhase root =
      (none, root.filter fun e =>
        sparseContains (splitLines s) e.1 || (isHidden e.1).getD false) := by
    simp [prunePhase, getFileInfoByName, hgit, hinfo, hsp, readFileNode,
      pruneLoop_eq_filter _ _ hne]
  by_cases hr : env.remoteOk = false
  · simp [CheckoutTag, hr] at hsucc
  by_cases hf : env.fetchOk = false
  · simp [CheckoutTag, hr, hf] at hsucc
  rcases hW : (GetTag env.odb tag).1 with _ | tg
  · have hgt : GetTag env.odb tag = (none, none) := by
      rw [show GetTag env.odb tag = ((GetTag env.odb tag).1, (GetTag env.odb tag).2) from rfl,
        hW]
      rfl
    simp [CheckoutTag, hr, hf, hgt] at hsucc
  have hgt : GetTag env.odb tag = (some tg, none) := by
    rw [show GetTag env.odb tag = ((GetTag env.odb tag).1, (GetTag env.odb tag).2) from rfl,
      hW]
    rfl
  by_cases ht : env.treeOk = false
  · simp [CheckoutTag, hr, hf, hgt, ht] at hsucc
  simp [CheckoutTag, hr, hf, hgt, ht, hp] at hsucc
  exact hsucc.symm

def gitNodeA : FSNode :=
  FSNode.dir [("info", FSNode.dir [("sparse-checkout", FSNode.file "second")])]

def rootA : List (String × FSNode) :=
  [(".git", gitNodeA), ("first", FSNode.file "1"), ("second", FSNode.file "2"),
    ("third", FSNode.file "3"), (".hidden", FSNode.file "4")]

def envA : GitEnv := ⟨true, true, [OdbObject.tagObj 0 "v1"], true⟩

theorem checkoutTag_sparse_prune_invariant_witness :
    CheckoutTag envA rootA "v1" =
      (none, [(".git", gitNodeA), ("second", FSNode.file "2"),
        (".hidden", FSNode.file "4")]) := by
  have h := checkoutTag_sparse_prune_invariant envA rootA "v1"
    [("info", FSNode.dir [("sparse-checkout", FSNode.file "second")])]
    [("sparse-checkout", FSNode.file "second")] "second"
    (CheckoutTag envA rootA "v1").2 rfl rfl rfl (by decide) rfl
  calc CheckoutTag envA rootA "v1" = (none, (CheckoutTag envA rootA "v1").2) := rfl
    _ = (none, [(".git", gitNodeA), ("second", FSNode.file "2"),
        (".hidden", FSNode.file "4")]) := by rw [h]; rfl

/-- C5: with `.git` present under the root but no `info` entry beneath it,
or with `.git/info` present but no `sparse-checkout` entry beneath that, a
successful `CheckoutTag` skips pruning entirely: it returns success with
the working tree unchanged, deleting nothing. -/
theorem checkoutTag_missing_sparse_config_succeeds (env : GitEnv)
    (root : List (String × FSNode)) (tag : String) (gEs : List (String × FSNode))
    (hr : env.remoteOk = true) (hf : env.fetchOk = true) (ht : env.treeOk = true)
    (htag : ∃ tg, (GetTag env.odb tag).1 = some tg)
    (hgit : findEntry root ".git" = some (FSNode.dir gEs))
    (hcase : findEntry gEs "info" = none ∨
      ∃ iEs, findEntry gEs "info" = some (FSNode.dir iEs) ∧
        findEntry iEs "sparse-checkout" = none) :
    CheckoutTag env root tag = (none, root) := by
  obtain ⟨tg, htg⟩ := htag
  have hgt : GetTag env.odb tag = (some tg, none) := by
    rw [show GetTag env.odb tag = ((GetTag env.odb tag).1, (GetTag env.odb tag).2) from rfl,
      htg]
    rfl
  have hp : prunePhase root = (none, root) := by
    rcases hcase with hnone | ⟨iEs, hinfo, hspn⟩
    · simp [prunePhase, getFileInfoByName, hgit, hnone]
    · simp [prunePhase, getFileInfoByName, hgit, hinfo, hspn]
  simp [CheckoutTag, hr, hf, ht, hgt, hp]

def envC5 : GitEnv := ⟨true, true, [OdbObject.tagObj 7 "rel"], true⟩

def rootC5 : List (String × FSNode) :=
  [(".git", FSNode.dir [("HEAD", FSNode.file "ref")]), ("src", FSNode.file "code")]

theorem checkoutTag_missing_sparse_config_succeeds_witness :
    CheckoutTag envC5 rootC5 "rel" = (none, rootC5) :=
  checkoutTag_missing_sparse_config_succeeds envC5 rootC5 "rel"
    [("HEAD", FSNode.file "ref")] rfl rfl rfl ⟨(7, "rel"), rfl⟩ rfl (Or.inl rfl)

lemma getLast?_cons_or {α : Type} (a : α) (l : List α) :
    (a :: l).getLast? = l.getLast?.or (some a) := by
  rw [List.getLast?_cons]
  cases h : l.getLast? with
  | none => simp [Option.or]
  | some b => simp [Option.or]

lemma or_some_or {α : Type} (x : Option α) (a : α) (y : Option α) :
    (x.or (some a)).or y = x.or (some a) := by
  cases x <;> simp [Option.or]

lemma forEachTag_fst (q : String) (odb : List OdbObject) :
    ∀ t0, (forEachTag q odb t0).1 =
      ((tagMatches (odb.takeWhile fun o => !o.isBad) q).getLast?).or t0 := by
  induction odb with
  | nil => intro t0; simp [forEachTag, tagMatches, List.takeWhile]
  | cons o rest ih =>
    intro t0
    cases o with
    | tagObj oid n =>
      have htw : ((OdbObject.tagObj oid n :: rest).takeWhile fun o => !o.isBad) =
          OdbObject.tagObj oid n :: (rest.takeWhile fun o => !o.isBad) := by
        simp [List.takeWhile_cons, OdbObject.isBad]
      by_cases hq : n = q
      · subst hq
        have hm : tagMatches ((OdbObject.tagObj oid n :: rest).takeWhile fun o => !o.isBad) n =
            (oid, n) :: tagMatches (rest.takeWhile fun o => !o.isBad) n := by
          rw [htw]
          simp [tagMatches, List.filterMap_cons]
        have hfe : forEachTag n (OdbObject.tagObj oid n :: rest) t0 =
            forEachTag n rest (some (oid, n)) := by
          simp [forEachTag]
        rw [hfe, ih, hm, getLast?_cons_or, or_some_or]
      · have hm : tagMatches ((OdbObject.tagObj oid n :: rest).takeWhile fun o => !o.isBad) q =
            tagMatches (rest.takeWhile fun o => !o.isBad) q := by
          rw [htw]
          simp [tagMatches, List.filterMap_cons, hq]
        have hfe : forEachTag q (OdbObject.tagObj oid n :: rest) t0 =
            forEachTag q rest t0 := by
          simp [forEachTag, hq]
        rw [hfe, ih, hm]
    | nonTag oid =>
      have htw : ((OdbObject.nonTag oid :: rest).takeWhile fun o => !o.isBad) =
          OdbObject.nonTag oid :: (rest.takeWhile fun o => !o.isBad) := by
        simp [List.takeWhile_cons, OdbObject.isBad]
      have hm : tagMatches ((OdbObject.nonTag oid :: rest).takeWhile fun o => !o.isBad) q =
          tagMatches (rest.takeWhile fun o => !o.isBad) q := by
        rw [htw]
        simp [tagMatches, List.filterMap_cons]
      rw [show forEachTag q (OdbObject.nonTag oid :: rest) t0 = forEachTag q rest t0 from rfl,
        ih, hm]
    | badObj oid =>
      have htw : ((OdbObject.badObj oid :: rest).takeWhile fun o => !o.isBad) =
          ([] : List OdbObject) := by
        simp [List.takeWhile_cons, OdbObject.isBad]
      rw [htw]
      simp [forEachTag, tagMatches]

lemma tagMatches_name {odb : List OdbObject} {q : String} {oid : Nat} {n : String}
    (h : (oid, n) ∈ tagMatches odb q) : n = q := by
  rcases List.mem_filterMap.mp (by simpa [tagMatches] using h) with ⟨o, _, hfo⟩
  cases o with
  | tagObj oid' n' =>
    by_cases hq : n' = q
    · simp [hq] at hfo
      exact hfo.2.symm
    · simp [hq] at hfo
  | nonTag _ => simp at hfo
  | badObj _ => simp at hfo

/-- C9: as long as object enumeration raises no error, tag resolution
returns the matching tag object that the object-database iteration
enumerates last: every later match overwrites the earlier one, there is no
early exit on a match and no uniqueness check. -/
theorem getTag_last_match_wins (odb : List OdbObject) (q : String)
    (hclean : ∀ o ∈ odb, o.isBad = false) :
    (GetTag odb q).1 = (tagMatches odb q).getLast? := by
  have htw : odb.takeWhile (fun o => !o.isBad) = odb := by
    induction odb with
    | nil => rfl
    | cons o rest ih =>
      rw [List.takeWhile_cons]
      simp [hclean o (by simp), ih fun x hx => hclean x (by simp [hx])]
  rw [show (GetTag odb q).1 = (forEachTag q odb none).1 from rfl, forEachTag_fst, htw]
  cases (tagMatches odb q).getLast? <;> simp [Option.or]

theorem getTag_last_match_wins_witness :
    (GetTag [OdbObject.tagObj 1 "v1", OdbObject.tagObj 2 "v1"] "v1").1 =
      some (2, "v1") := by
  rw [getTag_last_match_wins [OdbObject.tagObj 1 "v1", OdbObject.tagObj 2 "v1"] "v1"
    (by decide)]
  rfl

/-- C4 (counterexample): on a database whose single object fails `Lookup`,
the `ForEach` loop does return that error, but `GetTag` still reports a nil
error (and no tag): the enumeration error is not propagated to the caller
of tag resolution. -/
theorem getTag_error_propagation_cex :
    (forEachTag "v1" [OdbObject.badObj 0] none).2 = some 0 ∧
      (GetTag [OdbObject.badObj 0] "v1").2 = none ∧
      (GetTag [OdbObject.badObj 0] "v1").1 = none := by
  decide

/-- C4 (amended): an enumeration error stops the scan early but is
discarded, never propagated: `GetTag` always returns a nil error, and its
resolved tag is the last match among the objects enumerated before the
first failing one — so a match found before the error is still returned,
and without such a match the caller sees no tag rather than the error. -/
theorem getTag_enumeration_error_swallowed (odb : List OdbObject) (q : String) :
    (GetTag odb q).2 = none ∧
      (GetTag odb q).1 =
        (tagMatches (odb.takeWhile fun o => !o.isBad) q).getLast? := by
  refine ⟨rfl, ?_⟩
  rw [show (GetTag odb q).1 = (forEachTag q odb none).1 from rfl, forEachTag_fst]
  cases (tagMatches (odb.takeWhile fun o => !o.isBad) q).getLast? <;> simp [Option.or]

def envC3 : GitEnv := ⟨true, true, [OdbObject.badObj 0, OdbObject.tagObj 1 "v1"], true⟩

/-- C3 (counterexample): in a database where an object failing `Lookup`
precedes a tag named exactly `"v1"`, `CheckoutTag` fails with the
tag-not-found error even though a tag object whose name exactly equals the
query is present — failing is not equivalent to the absence of a matching
tag. -/
theorem tag_resolution_exact_iff_cex :
    (CheckoutTag envC3 [] "v1").1 = some GoError.tagNotFound ∧
      OdbObject.tagObj 1 "v1" ∈ envC3.odb := by
  decide

/-- C3 (amended): restricted to object databases in which every object can
be looked up (enumeration raises no error), tag resolution is exact string
match only: any resolved tag's name equals the query exactly, and
`CheckoutTag` (once the remote lookup and fetch succeed) fails with the
tag-not-found error iff no tag object in the database has a name exactly
equal to the query. -/
theorem tag_resolution_exact_match (env : GitEnv) (root : List (String × FSNode))
    (q : String)
    (hr : env.remoteOk = true) (hf : env.fetchOk = true)
    (hclean : ∀ o ∈ env.odb, o.isBad = false) :
    (∀ oid n, (GetTag env.odb q).1 = some (oid, n) → n = q) ∧
      ((CheckoutTag env root q).1 = some GoError.tagNotFound ↔
        ∀ oid, OdbObject.tagObj oid q ∉ env.odb) := by
  have hlast : (GetTag env.odb q).1 = (tagMatches env.odb q).getLast? :=
    getTag_last_match_wins _ _ hclean
  constructor
  · intro oid n h
    rw [hlast] at h
    have hx : (oid, n) ∈ tagMatches env.odb q := by
      rcases List.getLast?_eq_some_iff.mp h with ⟨l', hl'⟩
      rw [hl']
      simp
    exact tagMatches_name hx
  · rcases hW : (GetTag env.odb q).1 with _ | tg
    · have hgt : GetTag env.odb q = (none, none) := by
        rw [show GetTag env.odb q = ((GetTag env.odb q).1, (GetTag env.odb q).2) from rfl, hW]
        rfl
      have hres : (CheckoutTag env root q).1 = some GoError.tagNotFound := by
        simp [CheckoutTag, hr, hf, hgt]
      rw [hres]
      have hnil : tagMatches env.odb q = [] :=
        List.getLast?_eq_none_iff.mp (hlast ▸ hW)
      refine iff_of_true rfl fun oid hmem => ?_
      have : (tagMatches env.odb q).length ≠ 0 := by
        have h1 : (oid, q) ∈ tagMatches env.odb q := by
          refine List.mem_filterMap.mpr ⟨OdbObject.tagObj oid q, hmem, ?_⟩
          simp
        intro h0
        rw [List.length_eq_zero] at h0
        rw [h0] at h1
        simp at h1
      exact this (by rw [hnil]; rfl)
    · have hgt : GetTag env.odb q = (some tg, none) := by
        rw [show GetTag env.odb q = ((GetTag env.odb q).1, (GetTag env.odb q).2) from rfl, hW]
        rfl
      have hne : (CheckoutTag env root q).1 ≠ some GoError.tagNotFound := by
        by_cases ht : env.treeOk = false
        · simp [CheckoutTag, hr, hf, hgt, ht]
        · rcases hpp : prunePhase root with ⟨oerr, r⟩
          cases oerr <;> simp [CheckoutTag, hr, hf, hgt, ht, hpp]
      have htg : tg ∈ tagMatches env.odb q := by
        rw [hlast] at hW
        rcases List.getLast?_eq_some_iff.mp hW with ⟨l', hl'⟩
        rw [hl']
        simp
      rcases List.mem_filterMap.mp (by simpa [tagMatches] using htg) with ⟨o, ho, hfo⟩
      cases o with
      | tagObj oid' n' =>
        by_cases hq : n' = q
        · subst hq
          exact iff_of_false hne fun hall => hall oid' ho
        · simp [hq] at hfo
      | nonTag _ => simp at hfo
      | badObj _ => simp at hfo

def envC3w : GitEnv := ⟨true, true, [OdbObject.tagObj 3 "v1"], true⟩

theorem tag_resolution_exact_match_witness :
    (GetTag envC3w.odb "v1.0").1 = none ∧
      (CheckoutTag envC3w [] "v1.0").1 = some GoError.tagNotFound := by
  have h := tag_resolution_exact_match envC3w [] "v1.0" rfl rfl (by decide)
  refine ⟨rfl, h.2.mpr fun oid hmem => ?_⟩
  simp [envC3w] at hmem

lemma splitNl_ne_nil (cs : List Char) : splitNl cs ≠ [] := by
  induction cs with
  | nil => simp [splitNl]
  | cons c cs ih =>
    by_cases hc : c = '\n'
    · simp [splitNl, hc]
    · rcases h : splitNl cs with _ | ⟨l, ls⟩
      · exact absurd h ih
      · simp [splitNl, hc, h]

lemma splitNl_concat (cs : List Char) : splitNl (cs ++ ['\n']) = splitNl cs ++ [[]] := by
  induction cs with
  | nil => rfl
  | cons c cs ih =>
    by_cases hc : c = '\n'
    · simp [splitNl, hc, ih]
    · rcases h : splitNl cs with _ | ⟨l, ls⟩
      · exact absurd h (splitNl_ne_nil cs)
      · simp [splitNl, hc, ih, h]

lemma splitLines_concat_nl {s : String} {cs : List Char} (h : s.data = cs ++ ['\n']) :
    splitLines s = (splitNl cs).map String.mk ++ [""] := by
  rw [splitLines, h, splitNl_concat, List.map_append]
  rfl

lemma append_sep_ne_empty (n : String) : n ++ pathSeparator ≠ "" := by
  intro h
  have hd : (n ++ pathSeparator).data = [] := by simp [h]
  rw [String.data_append] at hd
  simp [pathSeparator] at hd

lemma retainDecision_append_empty {L : List String} {n : String} (h : n ≠ "") :
    retainDecision (L ++ [""]) n = retainDecision L n := by
  have h1 : ("" == n) = false := beq_false_of_ne (Ne.symm h)
  have h2 : ("" == n ++ pathSeparator) = false :=
    beq_false_of_ne (Ne.symm (append_sep_ne_empty n))
  have hc : sparseContains (L ++ [""]) n = sparseContains L n := by
    simp [sparseContains, List.any_append, h1, h2]
  simp [retainDecision, hc]

lemma pruneLoop_congr {L1 L2 : List String} (root : List (String × FSNode))
    (h : ∀ e ∈ root, retainDecision L1 e.1 = retainDecision L2 e.1) :
    pruneLoop L1 root = pruneLoop L2 root := by
  induction root with
  | nil => rfl
  | cons e rest ih =>
    have he := h e (by simp)
    have hrec := ih fun x hx => h x (by simp [hx])
    rcases hd : retainDecision L2 e.1 with _ | b
    · simp [pruneLoop, he.trans hd, hd]
    · cases b <;> simp [pruneLoop, he.trans hd, hd, hrec]

/-- C8: splitting a sparse-checkout file whose content ends in a newline
yields a trailing empty-string allowlist entry, and on any listing whose
entry names are all non-empty, pruning with that allowlist behaves exactly
as pruning with the allowlist without the empty entry — the empty entry
covers no real entry and has no observable effect. -/
theorem trailing_newline_empty_entry_harmless (s : String)
    (root : List (String × FSNode))
    (hnl : s.data.getLast? = some '\n')
    (hne : ∀ e ∈ root, e.1 ≠ "") :
    (splitLines s).getLast? = some "" ∧
      pruneLoop (splitLines s) root = pruneLoop ((splitLines s).dropLast) root := by
  rcases List.getLast?_eq_some_iff.mp hnl with ⟨cs, hcs⟩
  have hsl : splitLines s = (splitNl cs).map String.mk ++ [""] := splitLines_concat_nl hcs
  have hdrop : (splitLines s).dropLast = (splitNl cs).map String.mk := by
    rw [hsl, List.dropLast_concat]
  refine ⟨by rw [hsl, List.getLast?_concat], ?_⟩
  rw [hdrop, hsl]
  exact pruneLoop_congr root fun e he => retainDecision_append_empty (hne e he)

theorem trailing_newline_empty_entry_harmless_witness :
    (splitLines "first\nsecond\n").getLast? = some "" ∧
      pruneLoop (splitLines "first\nsecond\n")
          [("first", FSNode.file "1"), ("third", FSNode.file "3")] =
        pruneLoop ((splitLines "first\nsecond\n").dropLast)
          [("first", FSNode.file "1"), ("third", FSNode.file "3")] :=
  trailing_newline_empty_entry_harmless "first\nsecond\n"
    [("first", FSNode.file "1"), ("third", FSNode.file "3")] (by decide) (by decide)

